import Mathlib

/-!
Verification development for the multi-agent code-review repository.

The definitions below are a shallow embedding of the Python source:
- `CoordinatorAgent._execute_plan`, `_find_ready_steps`, `_run_step`
  (src/agents/coordinator.py) become `execLoop`, `findReadySteps`, `runStep`.
- `SharedContext` (src/context/shared_context.py) becomes `SharedContext`
  with `add_finding`, `consolidate`, `get_report` and the helpers
  `deduplicate`, `rankSort`, `buildSummary`.
- `Event.to_dict` / `Event.from_dict` (src/events/event_types.py) become
  `Event.to_dict` / `Event.from_dict`.

Concurrency is modelled by an explicit scheduler oracle: `asyncio.wait(...,
return_when=FIRST_COMPLETED)` returns some nonempty subset of the running
tasks, and the iteration order over that set is arbitrary; the oracle picks
the subset and its processing order.  Machine-level details (real time,
event-loop internals) do not affect any of the embedded functions: the
Python code never consults a clock.
-/

/-! ## Plan and step data model (src/planning/plan.py, planner.py)

A step is the dictionary shape produced by `PlanBuilder.build` and consumed
by the coordinator: step_id, agent_type, description, depends_on,
can_run_parallel, timeout_seconds. -/

abbrev StepId := String

structure Step where
  step_id : StepId
  agent_type : String
  description : String
  depends_on : List StepId
  can_run_parallel : Bool
  timeout_seconds : Nat
deriving DecidableEq

/-! ## Scheduler model (CoordinatorAgent._execute_plan / _find_ready_steps)

The scheduler keeps `completed` (a set of step ids) and `running` (the keys
of the running-task dict).  A ghost `trace` records, in order, every task
creation (`asyncio.create_task(self._run_step(...))`) and every completion
recorded by `completed.add(step_id)`. -/

inductive TraceEv where
  | taskCreated (id : StepId)
  | stepCompleted (id : StepId)
deriving DecidableEq

structure SchedState where
  completed : List StepId
  running : List StepId
  trace : List TraceEv
deriving DecidableEq

def initState : SchedState := ⟨[], [], []⟩

/-- Embeds `CoordinatorAgent._find_ready_steps`: skip steps already
completed or running, keep those whose every dependency is completed. -/
def findReadySteps (steps : List Step) (completed running : List StepId) : List Step :=
  steps.filter fun st =>
    decide ((st.step_id ∉ completed ∧ st.step_id ∉ running) ∧
      ∀ d ∈ st.depends_on, d ∈ completed)

/-- One scheduling pass of `_execute_plan`: create a task for every ready
step and record it in the running dict (and the ghost trace). -/
def scheduleReady (steps : List Step) (s : SchedState) : SchedState :=
  let ready := findReadySteps steps s.completed s.running
  { completed := s.completed
    running := s.running ++ ready.map (·.step_id)
    trace := s.trace ++ ready.map (fun st => TraceEv.taskCreated st.step_id) }

/-- Embeds the `for finished in done:` loop of `_execute_plan`: each
finished task is awaited (`await finished` re-raises the step's exception,
leaving the loop at once), and on success the step is moved from `running`
to `completed`.  `fails id = true` models the task for step `id` having
ended with an exception (unregistered specialist or worker error). -/
def processDone (fails : StepId → Bool) : List StepId → SchedState →
    Except (StepId × SchedState) SchedState
  | [], s => .ok s
  | id :: rest, s =>
    if fails id then .error (id, s)
    else processDone fails rest
      { completed := s.completed ++ [id]
        running := s.running.erase id
        trace := s.trace ++ [TraceEv.stepCompleted id] }

inductive ExecResult where
  | finished (st : SchedState)
  | deadlock (msg : String) (st : SchedState)
  | stepError (id : StepId) (st : SchedState)
  | outOfFuel (st : SchedState)
deriving DecidableEq

def ExecResult.isFinished : ExecResult → Bool
  | .finished _ => true
  | _ => false

def ExecResult.state : ExecResult → SchedState
  | .finished st => st
  | .deadlock _ st => st
  | .stepError _ st => st
  | .outOfFuel st => st

/-- Embeds the `while len(completed) < len(steps):` loop of
`CoordinatorAgent._execute_plan`.  The oracle models which running tasks
`asyncio.wait(..., return_when=FIRST_COMPLETED)` reports as done and in
which order the `for finished in done:` loop visits them.  `fuel` bounds
the number of loop iterations (the Python loop has no such bound; every
claim is settled at a fuel large enough that the bound is never hit). -/
def execLoop (steps : List Step) (fails : StepId → Bool)
    (oracle : SchedState → List StepId) : Nat → SchedState → ExecResult
  | 0, s => .outOfFuel s
  | fuel + 1, s =>
    if steps.length ≤ s.completed.length then .finished s
    else
      let s2 := scheduleReady steps s
      if s2.running.isEmpty then
        .deadlock "Deadlock detected in plan execution" s2
      else
        match processDone fails (oracle s2) s2 with
        | .error e => .stepError e.1 e.2
        | .ok s3 => execLoop steps fails oracle fuel s3

/-- A valid behaviour of `asyncio.wait(..., FIRST_COMPLETED)`: whenever at
least one task is running, the reported done set is a nonempty,
duplicate-free collection of running task ids. -/
def OracleValid (oracle : SchedState → List StepId) : Prop :=
  ∀ s : SchedState, s.running ≠ [] →
    oracle s ≠ [] ∧ (oracle s).Nodup ∧ ∀ id ∈ oracle s, id ∈ s.running

/-- One concrete valid oracle: the first running task finishes first. -/
def headOracle : SchedState → List StepId := fun s => s.running.take 1

/-- A plan whose steps form a valid DAG: unique step ids (the Plan
invariant), dependencies referencing only ids in the plan, and an acyclic
dependency graph (witnessed by a rank function, which exists exactly when
the finite graph has no cycle). -/
def ValidDag (steps : List Step) : Prop :=
  (steps.map (·.step_id)).Nodup ∧
  (∀ st ∈ steps, ∀ d ∈ st.depends_on, d ∈ steps.map (·.step_id)) ∧
  ∃ rank : StepId → Nat, ∀ st ∈ steps, ∀ d ∈ st.depends_on,
    rank d < rank st.step_id

def createdOf (t : List TraceEv) : List StepId :=
  t.filterMap fun e => match e with
    | .taskCreated id => some id
    | .stepCompleted _ => none

def completedEvOf (t : List TraceEv) : List StepId :=
  t.filterMap fun e => match e with
    | .taskCreated _ => none
    | .stepCompleted id => some id

/-- Reading the trace left to right with the accumulated completed set:
every task creation happens only when all dependencies of that step are
already in the completed set. -/
def traceOrdered (steps : List Step) : List StepId → List TraceEv → Prop
  | _, [] => True
  | done, .taskCreated id :: rest =>
    (∀ st ∈ steps, st.step_id = id → ∀ d ∈ st.depends_on, d ∈ done) ∧
      traceOrdered steps done rest
  | done, .stepCompleted id :: rest => traceOrdered steps (done ++ [id]) rest

def OrderOK (steps : List Step) (t : List TraceEv) : Prop :=
  traceOrdered steps [] t

def EachCreatedOnce (steps : List Step) (t : List TraceEv) : Prop :=
  ∀ st ∈ steps, t.count (TraceEv.taskCreated st.step_id) = 1

def AllStepsCompleted (steps : List Step) (s : SchedState) : Prop :=
  ∀ st ∈ steps, st.step_id ∈ s.completed

/-! ## Step runner model (CoordinatorAgent._run_step)

`_run_step` emits PLAN_STEP_STARTED, looks the specialist up by
`agent_type` (raising `No specialist for {agent_type}` on a miss), awaits
`agent.analyze`, and emits PLAN_STEP_COMPLETED only after `analyze`
returns.  A worker behaviour records whether `analyze` returns or raises,
the message it raises with, and how long it takes — the Python code never
reads a clock, so `duration` influences nothing. -/

inductive StepEvent where
  | started (step_id agent_type : String)
  | finishedStep (step_id agent_type : String)
deriving DecidableEq

structure WorkerBeh where
  duration : Nat
  ok : Bool
  errMsg : String
deriving DecidableEq

def runStep (specialists : List String) (beh : String → WorkerBeh)
    (step : Step) : List StepEvent × Option String :=
  let ev1 := StepEvent.started step.step_id step.agent_type
  if step.agent_type ∈ specialists then
    if (beh step.agent_type).ok then
      ([ev1, StepEvent.finishedStep step.step_id step.agent_type], none)
    else
      ([ev1], some (beh step.agent_type).errMsg)
  else
    ([ev1], some ("No specialist for " ++ step.agent_type))

/-! ## SharedContext model (src/context/shared_context.py) -/

structure Finding where
  category : Option String
  line : Option Nat
  description : Option String
  severity : Option String
  agent_type : Option String
deriving DecidableEq

def dedupKey (f : Finding) : Option String × Option Nat × Option String :=
  (f.category, f.line, f.description)

/-- Embeds `SharedContext._deduplicate` (seen-set loop, first wins). -/
def dedupAux (seen : List (Option String × Option Nat × Option String)) :
    List Finding → List Finding
  | [] => []
  | f :: fs =>
    if dedupKey f ∈ seen then dedupAux seen fs
    else f :: dedupAux (dedupKey f :: seen) fs

def deduplicate (findings : List Finding) : List Finding :=
  dedupAux [] findings

/-- Embeds `SEVERITY_WEIGHTS.get(sev, 1)`. -/
def weightOf (s : String) : Nat :=
  if s = "critical" then 4
  else if s = "high" then 3
  else if s = "medium" then 2
  else if s = "low" then 1
  else 1

/-- Embeds the `score` closure of `_rank_severity`:
`SEVERITY_WEIGHTS.get(f.get("severity", "low"), 1)`. -/
def scoreF (f : Finding) : Nat := weightOf (f.severity.getD "low")

/-- Stable descending insertion: the new element goes after every earlier
element of equal or greater score — exactly the order produced by Python's
stable `sorted(findings, key=score, reverse=True)`. -/
def insertRanked (w : α → Nat) (x : α) : List α → List α
  | [] => [x]
  | y :: ys => if w y < w x then x :: y :: ys else y :: insertRanked w x ys

/-- Embeds `SharedContext._rank_severity` as a stable descending sort. -/
def rankSort (w : α → Nat) (l : List α) : List α :=
  l.foldl (fun acc x => insertRanked w x acc) []

/-- Increment a key's count in an insertion-ordered association list
(Python's `defaultdict(int)` converted by `dict(...)`). -/
def bump (k : String) : List (String × Nat) → List (String × Nat)
  | [] => [(k, 1)]
  | (k2, n) :: rest =>
    if k2 = k then (k2, n + 1) :: rest else (k2, n) :: bump k rest

structure Summary where
  risk_score : Nat
  severity_breakdown : List (String × Nat)
  agent_breakdown : List (String × Nat)
deriving DecidableEq

/-- One iteration of the `for f in findings:` loop of `_build_summary`. -/
def summStep (acc : Summary) (f : Finding) : Summary :=
  let sev := f.severity.getD "low"
  let agent := f.agent_type.getD "unknown"
  { risk_score := acc.risk_score + weightOf sev
    severity_breakdown := bump sev acc.severity_breakdown
    agent_breakdown := bump agent acc.agent_breakdown }

/-- Embeds `SharedContext._build_summary`: one pass over the findings
counting severities and agent types and accumulating the risk score. -/
def buildSummary (findings : List Finding) : Summary :=
  findings.foldl summStep ⟨0, [], []⟩

structure Report where
  total_findings : Nat
  risk_score : Nat
  severity_breakdown : List (String × Nat)
  agent_breakdown : List (String × Nat)
  findings : List Finding
deriving DecidableEq

/-- Embeds `SharedContext._empty_report`. -/
def emptyReport : Report := ⟨0, 0, [], [], []⟩

/-- Embeds `SharedContext.consolidate` as a function of the finding list. -/
def consolidatePure (fs : List Finding) : Report :=
  if fs = [] then emptyReport
  else
    let merged := deduplicate fs
    let ranked := rankSort scoreF merged
    let summary := buildSummary ranked
    { total_findings := ranked.length
      risk_score := summary.risk_score
      severity_breakdown := summary.severity_breakdown
      agent_breakdown := summary.agent_breakdown
      findings := ranked }

/-- The mutable state of `SharedContext`: the raw finding list and the
cached `_report` (`none` models the falsy initial `{}`). -/
structure SharedContext where
  findings : List Finding
  report : Option Report
deriving DecidableEq

def SharedContext.init : SharedContext := ⟨[], none⟩

/-- Embeds `SharedContext.add_finding` (a plain append; the cached report
is not invalidated). -/
def add_finding (st : SharedContext) (f : Finding) : SharedContext :=
  { st with findings := st.findings ++ [f] }

/-- Embeds `SharedContext.consolidate`: recompute and cache the report. -/
def consolidate (st : SharedContext) : Report × SharedContext :=
  let r := consolidatePure st.findings
  (r, { st with report := some r })

/-- Embeds `SharedContext.get_report`: return the cached report if one
exists (`if not self._report`), otherwise consolidate. -/
def get_report (st : SharedContext) : Report × SharedContext :=
  match st.report with
  | some r => (r, st)
  | none => consolidate st

/-! ## Event model (src/events/event_types.py)

A datetime value is represented by its canonical `isoformat()` string (the
Python code only ever moves timestamps through `isoformat` /
`fromisoformat`, which are mutually inverse on canonical strings; a
canonical `isoformat()` output never ends in the character Z).  The
`data` payload dict is represented as an association list.  `from_dict`'s
fresh `uuid.uuid4()` is passed in as the `fresh` argument since it is
nondeterministic. -/

inductive EventType where
  | plan_created
  | plan_step_started
  | plan_step_completed
  | agent_started
  | agent_completed
  | agent_error
  | agent_delegated
  | thinking
  | thinking_complete
  | tool_call_start
  | tool_call_result
  | finding_discovered
  | fix_proposed
  | fix_verified
  | agent_message
  | findings_consolidated
  | final_report
deriving DecidableEq

def EventType.toValue : EventType → String
  | .plan_created => "plan_created"
  | .plan_step_started => "plan_step_started"
  | .plan_step_completed => "plan_step_completed"
  | .agent_started => "agent_started"
  | .agent_completed => "agent_completed"
  | .agent_error => "agent_error"
  | .agent_delegated => "agent_delegated"
  | .thinking => "thinking"
  | .thinking_complete => "thinking_complete"
  | .tool_call_start => "tool_call_start"
  | .tool_call_result => "tool_call_result"
  | .finding_discovered => "finding_discovered"
  | .fix_proposed => "fix_proposed"
  | .fix_verified => "fix_verified"
  | .agent_message => "agent_message"
  | .findings_consolidated => "findings_consolidated"
  | .final_report => "final_report"

/-- Embeds the `EventType(value)` enum lookup; `none` models the
`ValueError` raised on an unknown tag. -/
def EventType.ofValue (s : String) : Option EventType :=
  if s = "plan_created" then some .plan_created
  else if s = "plan_step_started" then some .plan_step_started
  else if s = "plan_step_completed" then some .plan_step_completed
  else if s = "agent_started" then some .agent_started
  else if s = "agent_completed" then some .agent_completed
  else if s = "agent_error" then some .agent_error
  else if s = "agent_delegated" then some .agent_delegated
  else if s = "thinking" then some .thinking
  else if s = "thinking_complete" then some .thinking_complete
  else if s = "tool_call_start" then some .tool_call_start
  else if s = "tool_call_result" then some .tool_call_result
  else if s = "finding_discovered" then some .finding_discovered
  else if s = "fix_proposed" then some .fix_proposed
  else if s = "fix_verified" then some .fix_verified
  else if s = "agent_message" then some .agent_message
  else if s = "findings_consolidated" then some .findings_consolidated
  else if s = "final_report" then some .final_report
  else none

structure Event where
  event_type : EventType
  agent_id : String
  data : List (String × String)
  timestamp : String
  event_id : String
  correlation_id : Option String
deriving DecidableEq

/-- The wire dict an event serializes to; `none` on a field models the key
being absent from the dict handed to `from_dict`. -/
structure EventDict where
  event_id : Option String
  event_type : Option String
  agent_id : Option String
  timestamp : Option String
  correlation_id : Option String
  data : Option (List (String × String))
deriving DecidableEq

/-- Embeds Python's `str.rstrip("Z")`: drop every trailing Z. -/
def rstripZ (s : String) : String :=
  String.mk ((s.data.reverse.dropWhile (fun c => c = 'Z')).reverse)

def endsWithZ (s : String) : Bool :=
  s.data.reverse.head? = some 'Z'

/-- Embeds `Event.to_dict`. -/
def Event.to_dict (e : Event) : EventDict :=
  { event_id := some e.event_id
    event_type := some e.event_type.toValue
    agent_id := some e.agent_id
    timestamp := some (e.timestamp ++ "Z")
    correlation_id := e.correlation_id
    data := some e.data }

/-- Embeds `Event.from_dict`.  Keyword arguments are evaluated in source
order, so the first missing required key (`event_type`, then `agent_id`,
then `timestamp`) raises the KeyError; a missing `event_id` silently takes
the fresh uuid, and `correlation_id`/`data` default to `None`/`{}`. -/
def Event.from_dict (fresh : String) (d : EventDict) : Except String Event :=
  match d.event_type with
  | none => .error "KeyError: event_type"
  | some tv =>
    match EventType.ofValue tv with
    | none => .error "ValueError: invalid event_type"
    | some et =>
      match d.agent_id with
      | none => .error "KeyError: agent_id"
      | some aid =>
        match d.timestamp with
        | none => .error "KeyError: timestamp"
        | some ts =>
          .ok { event_id := d.event_id.getD fresh
                event_type := et
                agent_id := aid
                data := d.data.getD []
                timestamp := rstripZ ts
                correlation_id := d.correlation_id }

/-! ## Lemmas about deduplication (SharedContext._deduplicate) -/

theorem dedupAux_sublist (seen : List (Option String × Option Nat × Option String))
    (fs : List Finding) : (dedupAux seen fs).Sublist fs := by
  induction fs generalizing seen with
  | nil => simp [dedupAux]
  | cons f fs ih =>
    simp only [dedupAux]
    split
    · exact (ih seen).cons f
    · exact (ih (dedupKey f :: seen)).cons₂ f

theorem dedupAux_key_not_seen (seen : List (Option String × Option Nat × Option String))
    (fs : List Finding) : ∀ g ∈ dedupAux seen fs, dedupKey g ∉ seen := by
  induction fs generalizing seen with
  | nil => simp [dedupAux]
  | cons f fs ih =>
    intro g hg
    simp only [dedupAux] at hg
    split at hg
    · exact ih seen g hg
    · rcases List.mem_cons.mp hg with rfl | hg2
      · assumption
      · intro hs
        exact ih (dedupKey f :: seen) g hg2 (List.mem_cons_of_mem _ hs)

theorem dedupAux_keys_nodup (seen : List (Option String × Option Nat × Option String))
    (fs : List Finding) : ((dedupAux seen fs).map dedupKey).Nodup := by
  induction fs generalizing seen with
  | nil => simp [dedupAux]
  | cons f fs ih =>
    simp only [dedupAux]
    split
    · exact ih seen
    · simp only [List.map_cons, List.nodup_cons]
      constructor
      · intro hmem
        rcases List.mem_map.mp hmem with ⟨g, hg, hkey⟩
        exact dedupAux_key_not_seen _ _ g hg (hkey ▸ List.mem_cons_self _ _)
      · exact ih (dedupKey f :: seen)

theorem dedupAux_rep (seen : List (Option String × Option Nat × Option String))
    (fs : List Finding) :
    ∀ f ∈ fs, dedupKey f ∈ seen ∨ ∃ g ∈ dedupAux seen fs, dedupKey g = dedupKey f := by
  induction fs generalizing seen with
  | nil => simp
  | cons f fs ih =>
    intro f2 hf2
    rcases List.mem_cons.mp hf2 with rfl | hf2
    · by_cases hs : dedupKey f2 ∈ seen
      · exact Or.inl hs
      · refine Or.inr ⟨f2, ?_, rfl⟩
        simp [dedupAux, hs]
    · simp only [dedupAux]
      split
      · exact ih seen f2 hf2
      · rcases ih (dedupKey f :: seen) f2 hf2 with hs | ⟨g, hg, hkey⟩
        · rcases List.mem_cons.mp hs with heq | hs2
          · exact Or.inr ⟨f, List.mem_cons_self _ _, heq.symm⟩
          · exact Or.inl hs2
        · exact Or.inr ⟨g, List.mem_cons_of_mem _ hg, hkey⟩

theorem dedupAux_find? (seen : List (Option String × Option Nat × Option String))
    (fs : List Finding) (k : Option String × Option Nat × Option String)
    (hk : k ∉ seen) :
    (dedupAux seen fs).find? (fun f => decide (dedupKey f = k)) =
      fs.find? (fun f => decide (dedupKey f = k)) := by
  induction fs generalizing seen with
  | nil => simp [dedupAux]
  | cons f fs ih =>
    simp only [dedupAux]
    by_cases hkey : dedupKey f = k
    · have hfs : dedupKey f ∉ seen := by rw [hkey]; exact hk
      rw [if_neg hfs]
      rw [List.find?_cons_of_pos _ (by simpa using hkey),
        List.find?_cons_of_pos _ (by simpa using hkey)]
    · have hp : ¬ (decide (dedupKey f = k) = true) := by simpa using hkey
      rw [List.find?_cons_of_neg fs hp]
      split
      · exact ih seen hk
      · have hk2 : k ∉ dedupKey f :: seen := by
          intro hmem
          rcases List.mem_cons.mp hmem with heq | hs
          · exact hkey heq.symm
          · exact hk hs
        rw [List.find?_cons_of_neg (dedupAux (dedupKey f :: seen) fs) hp]
        exact ih (dedupKey f :: seen) hk2

/-! ## Lemmas about severity ranking (SharedContext._rank_severity) -/

theorem insertRanked_perm (w : α → Nat) (x : α) (l : List α) :
    List.Perm (insertRanked w x l) (x :: l) := by
  induction l with
  | nil => exact List.Perm.refl _
  | cons y ys ih =>
    simp only [insertRanked]
    split
    · exact List.Perm.refl _
    · exact (ih.cons y).trans (List.Perm.swap x y ys)

theorem mem_insertRanked {w : α → Nat} {x a : α} {l : List α} :
    a ∈ insertRanked w x l ↔ a = x ∨ a ∈ l := by
  rw [(insertRanked_perm w x l).mem_iff, List.mem_cons]

theorem rankSort_perm (w : α → Nat) (l : List α) : List.Perm (rankSort w l) l := by
  suffices h : ∀ (l acc : List α),
      List.Perm (l.foldl (fun acc x => insertRanked w x acc) acc) (acc ++ l) by
    simpa using h l []
  intro l
  induction l with
  | nil => intro acc; simp
  | cons x xs ih =>
    intro acc
    refine (ih (insertRanked w x acc)).trans ?_
    refine (((insertRanked_perm w x acc).append_right xs).trans ?_)
    exact List.perm_middle.symm

theorem insertRanked_pairwise (w : α → Nat) (x : α) (l : List α)
    (hl : l.Pairwise (fun a b => w b ≤ w a)) :
    (insertRanked w x l).Pairwise (fun a b => w b ≤ w a) := by
  induction l with
  | nil => simp [insertRanked]
  | cons y ys ih =>
    rcases List.pairwise_cons.mp hl with ⟨hy, hys⟩
    simp only [insertRanked]
    split
    · refine List.pairwise_cons.mpr ⟨?_, hl⟩
      intro z hz
      rcases List.mem_cons.mp hz with rfl | hz2
      · omega
      · have := hy z hz2
        omega
    · refine List.pairwise_cons.mpr ⟨?_, ih hys⟩
      intro z hz
      rcases mem_insertRanked.mp hz with rfl | hz2
      · omega
      · exact hy z hz2

theorem rankSort_pairwise (w : α → Nat) (l : List α) :
    (rankSort w l).Pairwise (fun a b => w b ≤ w a) := by
  suffices h : ∀ (l acc : List α), acc.Pairwise (fun a b => w b ≤ w a) →
      (l.foldl (fun acc x => insertRanked w x acc) acc).Pairwise
        (fun a b => w b ≤ w a) by
    exact h l [] (by simp)
  intro l
  induction l with
  | nil => intro acc hacc; simpa using hacc
  | cons x xs ih =>
    intro acc hacc
    exact ih _ (insertRanked_pairwise w x acc hacc)

theorem insertRanked_map (w : β → Nat) (g : α → β) (x : α) (l : List α) :
    (insertRanked (fun a => w (g a)) x l).map g = insertRanked w (g x) (l.map g) := by
  induction l with
  | nil => rfl
  | cons y ys ih =>
    simp only [insertRanked, List.map_cons]
    split
    · simp
    · simp [ih]

theorem rankSort_map (w : β → Nat) (g : α → β) (l : List α) :
    (rankSort (fun a => w (g a)) l).map g = rankSort w (l.map g) := by
  suffices h : ∀ (l acc : List α),
      ((l.foldl (fun acc x => insertRanked (fun a => w (g a)) x acc) acc).map g) =
        ((l.map g).foldl (fun acc x => insertRanked w x acc) (acc.map g)) by
    exact h l []
  intro l
  induction l with
  | nil => intro acc; rfl
  | cons x xs ih =>
    intro acc
    simp only [List.foldl_cons, List.map_cons]
    rw [ih, insertRanked_map]

/-- The stability relation on index-tagged elements: strictly greater
score first, and among equal scores the smaller (earlier) index first. -/
def StableRel (w : α → Nat) (p q : Nat × α) : Prop :=
  w q.2 < w p.2 ∨ (w p.2 = w q.2 ∧ p.1 < q.1)

theorem insertRanked_stable (w : α → Nat) (x : Nat × α) (l : List (Nat × α))
    (hl : l.Pairwise (StableRel w)) (hidx : ∀ p ∈ l, p.1 < x.1) :
    (insertRanked (fun p => w p.2) x l).Pairwise (StableRel w) := by
  induction l with
  | nil => simp [insertRanked]
  | cons y ys ih =>
    rcases List.pairwise_cons.mp hl with ⟨hy, hys⟩
    simp only [insertRanked]
    split
    · refine List.pairwise_cons.mpr ⟨?_, hl⟩
      intro z hz
      rcases List.mem_cons.mp hz with rfl | hz2
      · exact Or.inl (by assumption)
      · have h1 : w y.2 < w x.2 := by assumption
        have h2 : w z.2 ≤ w y.2 := by
          rcases hy z hz2 with h | ⟨h, _⟩
          · omega
          · omega
        exact Or.inl (by omega)
    · refine List.pairwise_cons.mpr ⟨?_, ?_⟩
      · intro z hz
        rcases mem_insertRanked.mp hz with rfl | hz2
        · have h1 : ¬ w y.2 < w z.2 := by assumption
          rcases Nat.lt_or_ge (w z.2) (w y.2) with h | h
          · exact Or.inl h
          · exact Or.inr ⟨by omega, hidx y (List.mem_cons_self _ _)⟩
        · exact hy z hz2
      · exact ih hys (fun p hp => hidx p (List.mem_cons_of_mem _ hp))

theorem rankSort_stable (w : α → Nat) (l : List α) :
    (rankSort (fun p => w p.2) l.enum).Pairwise (StableRel w) := by
  suffices h : ∀ (l : List α) (n : Nat) (acc : List (Nat × α)),
      acc.Pairwise (StableRel w) → (∀ p ∈ acc, p.1 < n) →
      ((l.enumFrom n).foldl (fun acc x => insertRanked (fun p => w p.2) x acc)
        acc).Pairwise (StableRel w) by
    exact h l 0 [] (by simp) (by simp)
  intro l
  induction l with
  | nil => intro n acc hacc _; simpa using hacc
  | cons x xs ih =>
    intro n acc hacc hidx
    simp only [List.enumFrom, List.foldl_cons]
    refine ih (n + 1) _ (insertRanked_stable w (n, x) acc hacc hidx) ?_
    intro p hp
    rcases mem_insertRanked.mp hp with rfl | hp2
    · omega
    · have := hidx p hp2
      omega

/-! ## Lemmas about consolidation (SharedContext.consolidate) -/

theorem summStep_risk (acc : Summary) (f : Finding) :
    (summStep acc f).risk_score = acc.risk_score + scoreF f := rfl

theorem buildSummary_risk_aux (fs : List Finding) :
    ∀ acc : Summary, (fs.foldl summStep acc).risk_score =
      acc.risk_score + (fs.map scoreF).sum := by
  induction fs with
  | nil => intro acc; simp
  | cons f fs ih =>
    intro acc
    simp only [List.foldl_cons, List.map_cons, List.sum_cons]
    rw [ih, summStep_risk]
    omega

theorem buildSummary_risk (fs : List Finding) :
    (buildSummary fs).risk_score = (fs.map scoreF).sum := by
  simpa using buildSummary_risk_aux fs ⟨0, [], []⟩

theorem consolidatePure_findings (fs : List Finding) :
    (consolidatePure fs).findings = rankSort scoreF (deduplicate fs) := by
  by_cases h : fs = []
  · subst h; rfl
  · simp [consolidatePure, h]

theorem consolidatePure_risk (fs : List Finding) :
    (consolidatePure fs).risk_score =
      ((consolidatePure fs).findings.map scoreF).sum := by
  by_cases h : fs = []
  · subst h; rfl
  · simp [consolidatePure, h, buildSummary_risk]

/-! ## Example findings used in concrete checks -/

def exLow : Finding := ⟨some "c1", some 1, some "d1", some "low", some "security"⟩

def exCritical : Finding :=
  ⟨some "c2", some 2, some "d2", some "critical", some "security"⟩

def exMedium : Finding := ⟨some "c3", some 3, some "d3", some "medium", some "bug"⟩

def exNoSeverity : Finding := ⟨some "c4", none, some "d4", none, none⟩

/-- Claim C5: the consolidated report orders the deduplicated findings by
severity weight critical=4, high=3, medium=2, low=1 (unknown or missing
severity treated as low) in descending order, stably (ties keep relative
input order, witnessed through the index-tagged sort), and risk_score is
the sum of severity weights over the deduplicated ranked set; the example
[low, critical, medium] yields order [critical, medium, low] and
risk_score 7. -/
theorem claim5_severity_ranking_and_risk_score :
    (weightOf "critical" = 4 ∧ weightOf "high" = 3 ∧ weightOf "medium" = 2 ∧
      weightOf "low" = 1)
  ∧ (∀ s : String, s ∉ (["critical", "high", "medium", "low"] : List String) →
      weightOf s = weightOf "low")
  ∧ (∀ f : Finding, f.severity = none → scoreF f = weightOf "low")
  ∧ (∀ fs : List Finding,
      (consolidatePure fs).findings = rankSort scoreF (deduplicate fs))
  ∧ (∀ fs : List Finding, List.Perm (rankSort scoreF fs) fs)
  ∧ (∀ fs : List Finding,
      (rankSort scoreF fs).Pairwise (fun a b => scoreF b ≤ scoreF a))
  ∧ (∀ fs : List Finding,
      rankSort scoreF fs = (rankSort (fun p => scoreF p.2) fs.enum).map Prod.snd)
  ∧ (∀ fs : List Finding,
      (rankSort (fun p => scoreF p.2) fs.enum).Pairwise (StableRel scoreF))
  ∧ (∀ fs : List Finding,
      (consolidatePure fs).risk_score =
        ((consolidatePure fs).findings.map scoreF).sum)
  ∧ ((consolidatePure [exLow, exCritical, exMedium]).findings =
        [exCritical, exMedium, exLow]
      ∧ (consolidatePure [exLow, exCritical, exMedium]).risk_score = 7) := by
  refine ⟨by decide, ?_, ?_, consolidatePure_findings, rankSort_perm scoreF,
    rankSort_pairwise scoreF, ?_, rankSort_stable scoreF, consolidatePure_risk,
    by decide, by decide⟩
  · intro s hs
    simp only [List.mem_cons, List.not_mem_nil, or_false, not_or] at hs
    obtain ⟨h1, h2, h3, h4⟩ := hs
    simp [weightOf, h1, h2, h3, h4]
  · intro f hf
    simp [scoreF, hf]
  · intro fs
    have h := rankSort_map scoreF Prod.snd fs.enum
    rw [List.enum_eq_enumFrom, List.enumFrom_map_snd] at h
    rw [List.enum_eq_enumFrom]
    exact h.symm

/-- Witness for claim C5: the inner hypotheses discharged at concrete
inputs (an unknown severity string and a finding with no severity). -/
theorem claim5_witness :
    weightOf "sql_injection" = weightOf "low" ∧
      scoreF exNoSeverity = weightOf "low" := by
  obtain ⟨-, h2, h3, -⟩ := claim5_severity_ranking_and_risk_score
  exact ⟨h2 "sql_injection" (by decide), h3 exNoSeverity rfl⟩

/-- Claim C6: report consolidation deduplicates by (category, line,
description): the kept findings are a subsequence of the input with
pairwise-distinct keys, every input key has a representative, and the
representative for each key is the first input finding with that key
(later duplicates are dropped); the consolidated report's findings are a
permutation (reordering) of exactly that deduplicated list. -/
theorem claim6_dedup_by_key_first_occurrence_wins :
    ∀ fs : List Finding,
      (deduplicate fs).Sublist fs
    ∧ ((deduplicate fs).map dedupKey).Nodup
    ∧ (∀ f ∈ fs, ∃ g ∈ deduplicate fs, dedupKey g = dedupKey f)
    ∧ (∀ k, (deduplicate fs).find? (fun f => decide (dedupKey f = k)) =
        fs.find? (fun f => decide (dedupKey f = k)))
    ∧ List.Perm (consolidatePure fs).findings (deduplicate fs) := by
  intro fs
  refine ⟨dedupAux_sublist [] fs, dedupAux_keys_nodup [] fs, ?_, ?_, ?_⟩
  · intro f hf
    rcases dedupAux_rep [] fs f hf with hs | h
    · exact absurd hs (List.not_mem_nil _)
    · exact h
  · intro k
    exact dedupAux_find? [] fs k (List.not_mem_nil k)
  · rw [consolidatePure_findings]
    exact rankSort_perm scoreF (deduplicate fs)

/-- Witness for claim C6: the duplicate-key example from the spec (same
category, line and description, different severity): the first occurrence
is kept and the later duplicate dropped. -/
theorem claim6_witness :
    deduplicate [exLow, { exLow with severity := some "critical" }] = [exLow] ∧
      (deduplicate [exLow, exLow]).find?
          (fun f => decide (dedupKey f = dedupKey exLow)) =
        [exLow, exLow].find? (fun f => decide (dedupKey f = dedupKey exLow)) := by
  refine ⟨by decide, ?_⟩
  exact (claim6_dedup_by_key_first_occurrence_wins [exLow, exLow]).2.2.2.1
    (dedupKey exLow)

/-! ## Claim C7: get_report caching -/

/-- Counterexample to claim C7: after a first `get_report` call, adding a
second (distinct-key) finding and calling `get_report` again returns the
stale cached report with total_findings 1, although the consolidation of
the findings added so far has total_findings 2. -/
theorem claim7_counterexample :
    (get_report (add_finding
        (get_report (add_finding SharedContext.init exLow)).2 exMedium)).1.total_findings = 1
  ∧ (consolidatePure (add_finding
        (get_report (add_finding SharedContext.init exLow)).2 exMedium).findings).total_findings = 2 := by
  decide

/-- Claim C7 amended: `consolidate` is a pure recomputation from the
current finding set and `get_report` never mutates the findings; the first
`get_report` call (empty cache) consolidates exactly the findings added so
far — in particular the empty finding set yields the all-zero empty report
— but once a report is cached every later `get_report` returns it
unchanged, even after further `add_finding` calls. -/
theorem claim7_amended_get_report_caches :
    (∀ st : SharedContext, st.report = none →
      get_report st = (consolidatePure st.findings,
        { st with report := some (consolidatePure st.findings) }))
  ∧ (∀ (st : SharedContext) (r : Report), st.report = some r →
      get_report st = (r, st))
  ∧ (∀ st : SharedContext, (get_report st).2.findings = st.findings)
  ∧ (∀ st : SharedContext, consolidate st = (consolidatePure st.findings,
      { st with report := some (consolidatePure st.findings) }))
  ∧ (get_report SharedContext.init =
      (emptyReport, { findings := [], report := some emptyReport }))
  ∧ (emptyReport.total_findings = 0 ∧ emptyReport.risk_score = 0 ∧
      emptyReport.severity_breakdown = [] ∧ emptyReport.agent_breakdown = [] ∧
      emptyReport.findings = []) := by
  refine ⟨?_, ?_, ?_, ?_, by decide, by decide⟩
  · intro st h
    simp [get_report, h, consolidate]
  · intro st r h
    simp [get_report, h]
  · intro st
    cases hr : st.report with
    | none => simp [get_report, hr, consolidate]
    | some r => simp [get_report, hr]
  · intro st
    rfl

/-- Witness for claim C7 amended: the cache-miss and cache-hit branches
discharged on concrete states. -/
theorem claim7_witness :
    get_report ⟨[exLow], none⟩ =
      (consolidatePure [exLow], ⟨[exLow], some (consolidatePure [exLow])⟩)
  ∧ get_report ⟨[exLow], some emptyReport⟩ = (emptyReport, ⟨[exLow], some emptyReport⟩) := by
  obtain ⟨h1, h2, -⟩ := claim7_amended_get_report_caches
  exact ⟨h1 ⟨[exLow], none⟩ rfl, h2 ⟨[exLow], some emptyReport⟩ emptyReport rfl⟩

/-! ## Claim C10: event order inside _run_step -/

/-- Claim C10: `_run_step` publishes PLAN_STEP_STARTED before looking up
the specialist, so a step with an unregistered agent_type still produces
the started event and then raises `No specialist for ...`; and
PLAN_STEP_COMPLETED is published exactly when the specialist is registered
and its analyze call returns successfully — never for a step that raised,
and always after the started event. -/
theorem claim10_started_first_completed_only_on_success :
    ∀ (sp : List String) (beh : String → WorkerBeh) (step : Step),
      ((runStep sp beh step).1.head? =
        some (StepEvent.started step.step_id step.agent_type))
    ∧ (step.agent_type ∉ sp →
        runStep sp beh step =
          ([StepEvent.started step.step_id step.agent_type],
            some ("No specialist for " ++ step.agent_type)))
    ∧ ((StepEvent.finishedStep step.step_id step.agent_type ∈ (runStep sp beh step).1) ↔
        (step.agent_type ∈ sp ∧ (beh step.agent_type).ok = true))
    ∧ ((runStep sp beh step).2 = none →
        runStep sp beh step =
          ([StepEvent.started step.step_id step.agent_type,
            StepEvent.finishedStep step.step_id step.agent_type], none)) := by
  intro sp beh step
  by_cases hm : step.agent_type ∈ sp
  · by_cases hok : (beh step.agent_type).ok
    · simp [runStep, hm, hok]
    · simp [runStep, hm, hok]
  · simp [runStep, hm]

def c10step : Step := ⟨"sec1", "security", "scan", [], true, 60⟩

def c10beh : String → WorkerBeh := fun _ => ⟨5, true, ""⟩

/-- Witness for claim C10: a step with no registered specialist still
yields the started event then the error, and a successful step yields
started then completed. -/
theorem claim10_witness :
    runStep [] c10beh c10step =
      ([StepEvent.started "sec1" "security"],
        some ("No specialist for " ++ "security"))
  ∧ runStep ["security"] c10beh c10step =
      ([StepEvent.started "sec1" "security",
        StepEvent.finishedStep "sec1" "security"], none) := by
  obtain ⟨-, h2, -, -⟩ := claim10_started_first_completed_only_on_success [] c10beh c10step
  obtain ⟨-, -, -, h4⟩ :=
    claim10_started_first_completed_only_on_success ["security"] c10beh c10step
  exact ⟨h2 (by decide), h4 (by decide)⟩

/-! ## Claim C4: step timeouts -/

def c4step : Step := ⟨"s1", "security", "slow analysis", [], true, 60⟩

def c4slowBeh : String → WorkerBeh := fun _ => ⟨1000000, true, ""⟩

/-- Counterexample to claim C4: a step declaring timeout_seconds = 60 whose
worker takes 1000000 time units still completes successfully — it is not
treated as FAILED with a timeout error, because `_run_step` never enforces
the timeout. -/
theorem claim4_counterexample :
    c4step.timeout_seconds = 60 ∧ 60 < (c4slowBeh "security").duration ∧
      runStep ["security"] c4slowBeh c4step =
        ([StepEvent.started "s1" "security",
          StepEvent.finishedStep "s1" "security"], none) := by
  decide

/-- Claim C4 amended: each step declares timeout_seconds but the scheduler
never enforces it: `_run_step` awaits the worker with no time limit, so the
step's outcome is determined solely by the worker's result, independent of
both the declared timeout and how long the worker takes. -/
theorem claim4_amended_timeout_never_enforced :
    ∀ (sp : List String) (beh : String → WorkerBeh) (step : Step) (t d : Nat),
      runStep sp beh { step with timeout_seconds := t } = runStep sp beh step
    ∧ runStep sp (fun a => { beh a with duration := d }) step = runStep sp beh step := by
  intro sp beh step t d
  exact ⟨rfl, rfl⟩

/-! ## Claim C8: event serialization round-trip -/

theorem ofValue_toValue (t : EventType) :
    EventType.ofValue (EventType.toValue t) = some t := by
  cases t <;> rfl

theorem rstripZ_append_Z (s : String) (h : endsWithZ s = false) :
    rstripZ (s ++ "Z") = s := by
  obtain ⟨l⟩ := s
  simp only [endsWithZ, decide_eq_false_iff_not] at h
  have hrev : (String.mk l ++ "Z").data.reverse = 'Z' :: l.reverse := by
    rw [show (String.mk l ++ "Z").data = l ++ ['Z'] from rfl]
    simp
  unfold rstripZ
  rw [hrev, List.dropWhile_cons_of_pos (by simp)]
  have hdrop : List.dropWhile (fun c => decide (c = 'Z')) l.reverse = l.reverse := by
    cases hx : l.reverse with
    | nil => rfl
    | cons c cs =>
      have hc : c ≠ 'Z' := fun hcz => h (by rw [hx, hcz]; rfl)
      rw [List.dropWhile_cons_of_neg (by simp [hc])]
  rw [hdrop, List.reverse_reverse]

/-- Counterexample to claim C8: `from_dict` applied to a dict that is
missing `timestamp` raises the KeyError from `data["timestamp"]` instead
of assigning a fresh timestamp. -/
theorem claim8_counterexample :
    Event.from_dict "fresh-uuid"
        ⟨some "id1", some "thinking", some "coordinator", none, none, some []⟩ =
      Except.error "KeyError: timestamp" := by
  rfl

/-- Claim C8 amended: serialization round-trips without information loss
(`from_dict (to_dict e) = e` in every field, for any event whose timestamp
is a canonical isoformat string, i.e. one not ending in Z), and a missing
`event_id` is assigned the fresh uuid; but a dict missing `timestamp`
makes `from_dict` raise a KeyError instead of assigning a fresh value. -/
theorem claim8_amended_roundtrip_and_missing_fields :
    (∀ (e : Event) (fresh : String), endsWithZ e.timestamp = false →
      Event.from_dict fresh (Event.to_dict e) = Except.ok e)
  ∧ (∀ (fresh : String) (d : EventDict) (e : Event),
      Event.from_dict fresh d = Except.ok e → d.event_id = none →
      e.event_id = fresh)
  ∧ (∀ (fresh : String) (d : EventDict) (tv : String) (et : EventType) (aid : String),
      d.event_type = some tv → EventType.ofValue tv = some et →
      d.agent_id = some aid → d.timestamp = none →
      Event.from_dict fresh d = Except.error "KeyError: timestamp") := by
  refine ⟨?_, ?_, ?_⟩
  · intro e fresh h
    simp [Event.to_dict, Event.from_dict, ofValue_toValue, rstripZ_append_Z _ h]
  · intro fresh d e h hid
    obtain ⟨did, dtype, daid, dts, dcorr, ddata⟩ := d
    simp only at hid
    subst hid
    cases dtype with
    | none => simp [Event.from_dict] at h
    | some tv =>
      cases hv : EventType.ofValue tv with
      | none => simp [Event.from_dict, hv] at h
      | some et =>
        cases daid with
        | none => simp [Event.from_dict, hv] at h
        | some aid =>
          cases dts with
          | none => simp [Event.from_dict, hv] at h
          | some ts =>
            simp only [Event.from_dict, hv, Except.ok.injEq] at h
            rw [← h]
            rfl
  · intro fresh d tv et aid htype hval haid hts
    obtain ⟨did, dtype, daid, dts, dcorr, ddata⟩ := d
    simp only at htype haid hts
    subst htype haid hts
    simp [Event.from_dict, hval]

def e0 : Event := ⟨EventType.thinking, "coordinator", [("chunk", "analyzing")],
  "2024-01-15T10:30:00", "test-123", none⟩

/-- Witness for claim C8 amended: the round trip discharged on a concrete
event, and the missing-timestamp branch discharged on a concrete dict. -/
theorem claim8_witness :
    Event.from_dict "fresh-uuid" (Event.to_dict e0) = Except.ok e0
  ∧ Event.from_dict "fresh-uuid"
        ⟨some "id2", some "agent_started", some "a1", none, none, none⟩ =
      Except.error "KeyError: timestamp" := by
  obtain ⟨h1, -, h3⟩ := claim8_amended_roundtrip_and_missing_fields
  exact ⟨h1 e0 "fresh-uuid" (by decide),
    h3 "fresh-uuid" ⟨some "id2", some "agent_started", some "a1", none, none, none⟩
      "agent_started" EventType.agent_started "a1" rfl (by decide) rfl rfl⟩

/-! ## Scheduler lemmas: traces -/

theorem createdOf_append (t u : List TraceEv) :
    createdOf (t ++ u) = createdOf t ++ createdOf u :=
  List.filterMap_append t u _

theorem completedEvOf_append (t u : List TraceEv) :
    completedEvOf (t ++ u) = completedEvOf t ++ completedEvOf u :=
  List.filterMap_append t u _

theorem createdOf_creations (l : List Step) :
    createdOf (l.map (fun st => TraceEv.taskCreated st.step_id)) =
      l.map (·.step_id) := by
  induction l with
  | nil => rfl
  | cons st l ih => simp [createdOf] at ih ⊢; exact ih

theorem completedEvOf_creations (l : List Step) :
    completedEvOf (l.map (fun st => TraceEv.taskCreated st.step_id)) = [] := by
  induction l with
  | nil => rfl
  | cons st l ih => simp [completedEvOf]

theorem count_taskCreated (t : List TraceEv) (id : StepId) :
    t.count (TraceEv.taskCreated id) = (createdOf t).count id := by
  induction t with
  | nil => rfl
  | cons e t ih =>
    cases e with
    | taskCreated j =>
      have hcr : createdOf (TraceEv.taskCreated j :: t) = j :: createdOf t := rfl
      rw [hcr, List.count_cons, List.count_cons, ih]
      by_cases h : j = id
      · subst h; simp
      · simp [h]
    | stepCompleted j =>
      have hcr : createdOf (TraceEv.stepCompleted j :: t) = createdOf t := rfl
      rw [hcr, List.count_cons, ih]
      simp

theorem traceOrdered_append (steps : List Step) (t u : List TraceEv) :
    ∀ done : List StepId, traceOrdered steps done (t ++ u) ↔
      (traceOrdered steps done t ∧
        traceOrdered steps (done ++ completedEvOf t) u) := by
  induction t with
  | nil => intro done; simp [traceOrdered, completedEvOf]
  | cons e t ih =>
    intro done
    cases e with
    | taskCreated id =>
      have hc : completedEvOf (TraceEv.taskCreated id :: t) = completedEvOf t := rfl
      simp only [List.cons_append, traceOrdered, hc, List.append_eq, ih done]
      tauto
    | stepCompleted id =>
      have hc : completedEvOf (TraceEv.stepCompleted id :: t) =
        id :: completedEvOf t := rfl
      simp only [List.cons_append, traceOrdered, hc, List.append_eq, ih (done ++ [id]),
        List.append_assoc, List.singleton_append, List.nil_append]

theorem traceOrdered_creations (steps : List Step) (done : List StepId)
    (l : List Step)
    (h : ∀ st ∈ l, ∀ st2 ∈ steps, st2.step_id = st.step_id →
      ∀ d ∈ st2.depends_on, d ∈ done) :
    traceOrdered steps done (l.map (fun st => TraceEv.taskCreated st.step_id)) := by
  induction l with
  | nil => trivial
  | cons st l ih =>
    refine ⟨h st (List.mem_cons_self _ _), ?_⟩
    exact ih (fun st2 h2 => h st2 (List.mem_cons_of_mem _ h2))

/-! ## Scheduler lemmas: the loop invariant -/

theorem mem_findReadySteps {steps : List Step} {completed running : List StepId}
    {st : Step} :
    st ∈ findReadySteps steps completed running ↔
      st ∈ steps ∧ (st.step_id ∉ completed ∧ st.step_id ∉ running) ∧
        ∀ d ∈ st.depends_on, d ∈ completed := by
  simp [findReadySteps, List.mem_filter]

/-- The loop invariant of `_execute_plan`: the completed set and running
dict hold disjoint, duplicate-free step ids of the plan; the ghost trace's
creations are exactly completed plus running; its completion events are
exactly the completed list; and the trace is dependency-ordered. -/
structure SchedInv (steps : List Step) (s : SchedState) : Prop where
  comp_nodup : s.completed.Nodup
  run_nodup : s.running.Nodup
  disj : ∀ id ∈ s.completed, id ∉ s.running
  comp_sub : ∀ id ∈ s.completed, id ∈ steps.map (·.step_id)
  run_sub : ∀ id ∈ s.running, id ∈ steps.map (·.step_id)
  created_perm : List.Perm (createdOf s.trace) (s.completed ++ s.running)
  compl_eq : completedEvOf s.trace = s.completed
  order_ok : traceOrdered steps [] s.trace

theorem schedInv_init (steps : List Step) : SchedInv steps initState := by
  refine ⟨?_, ?_, ?_, ?_, ?_, ?_, ?_, ?_⟩ <;>
    simp [initState, createdOf, completedEvOf, traceOrdered]

theorem exists_min_nat {α : Type} (l : List α) (f : α → Nat) (h : l ≠ []) :
    ∃ a ∈ l, ∀ b ∈ l, f a ≤ f b := by
  induction l with
  | nil => exact absurd rfl h
  | cons x xs ih =>
    by_cases hxs : xs = []
    · subst hxs
      refine ⟨x, List.mem_cons_self _ _, ?_⟩
      intro b hb
      rcases List.mem_cons.mp hb with rfl | hb2
      · exact Nat.le_refl _
      · cases hb2
    · obtain ⟨a, ha, hmin⟩ := ih hxs
      by_cases hc : f x ≤ f a
      · refine ⟨x, List.mem_cons_self _ _, ?_⟩
        intro b hb
        rcases List.mem_cons.mp hb with rfl | hb2
        · exact Nat.le_refl _
        · exact Nat.le_trans hc (hmin b hb2)
      · refine ⟨a, List.mem_cons_of_mem _ ha, ?_⟩
        intro b hb
        rcases List.mem_cons.mp hb with rfl | hb2
        · omega
        · exact hmin b hb2

theorem schedInv_scheduleReady (steps : List Step) (s : SchedState)
    (hinv : SchedInv steps s) (hnodup : (steps.map (·.step_id)).Nodup) :
    SchedInv steps (scheduleReady steps s) := by
  have hready : ∀ st ∈ findReadySteps steps s.completed s.running,
      st ∈ steps ∧ (st.step_id ∉ s.completed ∧ st.step_id ∉ s.running) ∧
        ∀ d ∈ st.depends_on, d ∈ s.completed :=
    fun st h => mem_findReadySteps.mp h
  have hrid_nodup : ((findReadySteps steps s.completed s.running).map (·.step_id)).Nodup :=
    ((List.filter_sublist steps).map (·.step_id)).nodup hnodup
  have hmem_rid : ∀ id ∈ (findReadySteps steps s.completed s.running).map (·.step_id),
      id ∉ s.completed ∧ id ∉ s.running ∧ id ∈ steps.map (·.step_id) := by
    intro id hid
    rcases List.mem_map.mp hid with ⟨st, hst, rfl⟩
    obtain ⟨hsteps, ⟨hc, hr⟩, -⟩ := hready st hst
    exact ⟨hc, hr, List.mem_map_of_mem _ hsteps⟩
  refine ⟨hinv.comp_nodup, ?_, ?_, hinv.comp_sub, ?_, ?_, ?_, ?_⟩
  · refine List.nodup_append.mpr ⟨hinv.run_nodup, hrid_nodup, ?_⟩
    intro a ha hb
    exact (hmem_rid a hb).2.1 ha
  · intro id hid
    simp only [scheduleReady, List.mem_append]
    rintro (hr | hr)
    · exact hinv.disj id hid hr
    · exact (hmem_rid id hr).1 hid
  · intro id hid
    rcases List.mem_append.mp hid with hr | hr
    · exact hinv.run_sub id hr
    · exact (hmem_rid id hr).2.2
  · show List.Perm (createdOf (s.trace ++ _)) _
    rw [createdOf_append, createdOf_creations]
    have h1 := (hinv.created_perm).append_right
      ((findReadySteps steps s.completed s.running).map (·.step_id))
    rw [List.append_assoc] at h1
    exact h1
  · show completedEvOf (s.trace ++ _) = _
    rw [completedEvOf_append, completedEvOf_creations, List.append_nil]
    exact hinv.compl_eq
  · show traceOrdered steps [] (s.trace ++ _)
    rw [traceOrdered_append]
    refine ⟨hinv.order_ok, ?_⟩
    rw [List.nil_append, hinv.compl_eq]
    refine traceOrdered_creations steps s.completed _ ?_
    intro st hst st2 hst2 heq d hd
    obtain ⟨hsteps, -, hdeps⟩ := hready st hst
    have : st2 = st := List.inj_on_of_nodup_map hnodup hst2 hsteps heq
    subst this
    exact hdeps d hd

theorem processDone_ok (steps : List Step) (fails : StepId → Bool)
    (hfail : ∀ st ∈ steps, fails st.step_id = false) :
    ∀ (done : List StepId) (s : SchedState), SchedInv steps s →
      done.Nodup → (∀ id ∈ done, id ∈ s.running) →
      ∃ s2, processDone fails done s = .ok s2 ∧ SchedInv steps s2 ∧
        s2.completed.length = s.completed.length + done.length := by
  intro done
  induction done with
  | nil =>
    intro s hinv _ _
    exact ⟨s, rfl, hinv, by simp⟩
  | cons id rest ih =>
    intro s hinv hnd hsub
    have hid_run : id ∈ s.running := hsub id (List.mem_cons_self _ _)
    have hid_ids : id ∈ steps.map (·.step_id) := hinv.run_sub id hid_run
    have hfid : fails id = false := by
      rcases List.mem_map.mp hid_ids with ⟨st, hst, rfl⟩
      exact hfail st hst
    have hid_nc : id ∉ s.completed := fun hc => hinv.disj id hc hid_run
    simp only [processDone, hfid, Bool.false_eq_true, if_false]
    set s1 : SchedState :=
      { completed := s.completed ++ [id]
        running := s.running.erase id
        trace := s.trace ++ [TraceEv.stepCompleted id] } with hs1
    have hinv1 : SchedInv steps s1 := by
      refine ⟨?_, hinv.run_nodup.erase id, ?_, ?_, ?_, ?_, ?_, ?_⟩
      · refine List.nodup_append.mpr ⟨hinv.comp_nodup, List.nodup_singleton id, ?_⟩
        intro a ha hb
        rw [List.mem_singleton] at hb
        subst hb
        exact hid_nc ha
      · intro x hx
        rcases List.mem_append.mp hx with hx | hx
        · intro hmem
          exact hinv.disj x hx (List.erase_subset _ _ hmem)
        · rw [List.mem_singleton] at hx
          subst hx
          exact hinv.run_nodup.not_mem_erase
      · intro x hx
        rcases List.mem_append.mp hx with hx | hx
        · exact hinv.comp_sub x hx
        · rw [List.mem_singleton] at hx
          subst hx
          exact hid_ids
      · intro x hx
        exact hinv.run_sub x (List.erase_subset _ _ hx)
      · show List.Perm (createdOf (s.trace ++ _)) _
        rw [createdOf_append]
        have hcr : createdOf [TraceEv.stepCompleted id] = [] := rfl
        rw [hcr, List.append_nil]
        refine (hinv.created_perm.trans ?_)
        refine ((List.perm_cons_erase hid_run).append_left s.completed).trans ?_
        rw [List.append_assoc, List.singleton_append]
      · show completedEvOf (s.trace ++ _) = _
        rw [completedEvOf_append, hinv.compl_eq]
        rfl
      · show traceOrdered steps [] (s.trace ++ _)
        rw [traceOrdered_append]
        refine ⟨hinv.order_ok, ?_⟩
        rw [List.nil_append, hinv.compl_eq]
        exact trivial
    have hsub1 : ∀ y ∈ rest, y ∈ s1.running := by
      intro y hy
      have hyr : y ∈ s.running := hsub y (List.mem_cons_of_mem _ hy)
      have hyne : y ≠ id := by
        intro heq
        subst heq
        exact (List.nodup_cons.mp hnd).1 hy
      exact List.mem_erase_of_ne hyne |>.mpr hyr
    obtain ⟨s2, hok, hinv2, hlen⟩ := ih s1 hinv1 (List.nodup_cons.mp hnd).2 hsub1
    refine ⟨s2, hok, hinv2, ?_⟩
    rw [hlen]
    simp [hs1]
    omega

theorem ready_nonempty (steps : List Step) (hdag : ValidDag steps)
    (s : SchedState)
    (hlt : s.completed.length < steps.length) (hrun : s.running = []) :
    findReadySteps steps s.completed s.running ≠ [] := by
  obtain ⟨hnodup, hdeps, rank, hrank⟩ := hdag
  set pend := steps.filter (fun st => decide (st.step_id ∉ s.completed)) with hpend
  have hpend_ne : pend ≠ [] := by
    intro hnil
    have hall : ∀ st ∈ steps, st.step_id ∈ s.completed := by
      intro st hst
      by_contra hc
      have : st ∈ pend := List.mem_filter.mpr ⟨hst, by simpa using hc⟩
      rw [hnil] at this
      cases this
    have hsub : steps.map (·.step_id) ⊆ s.completed := by
      intro x hx
      rcases List.mem_map.mp hx with ⟨st, hst, rfl⟩
      exact hall st hst
    have hle := (List.subperm_of_subset hnodup hsub).length_le
    rw [List.length_map] at hle
    omega
  obtain ⟨st, hst_pend, hmin⟩ := exists_min_nat pend (fun st => rank st.step_id) hpend_ne
  have hst_steps : st ∈ steps := (List.mem_filter.mp hst_pend).1
  have hst_nc : st.step_id ∉ s.completed := by
    have := (List.mem_filter.mp hst_pend).2
    simpa using this
  have hready : st ∈ findReadySteps steps s.completed s.running := by
    refine mem_findReadySteps.mpr ⟨hst_steps, ⟨hst_nc, by rw [hrun]; exact List.not_mem_nil _⟩, ?_⟩
    intro d hd
    by_contra hdc
    rcases List.mem_map.mp (hdeps st hst_steps d hd) with ⟨st2, hst2, heq⟩
    have hst2_pend : st2 ∈ pend := by
      refine List.mem_filter.mpr ⟨hst2, ?_⟩
      rw [heq]
      simpa using hdc
    have h1 := hmin st2 hst2_pend
    have h2 := hrank st hst_steps d hd
    rw [heq] at h1
    omega
  exact List.ne_nil_of_mem hready

theorem execLoop_finishes (steps : List Step) (fails : StepId → Bool)
    (oracle : SchedState → List StepId)
    (hdag : ValidDag steps) (hfail : ∀ st ∈ steps, fails st.step_id = false)
    (horacle : OracleValid oracle) :
    ∀ (fuel : Nat) (s : SchedState), SchedInv steps s →
      steps.length - s.completed.length < fuel →
      ∃ s2, execLoop steps fails oracle fuel s = .finished s2 ∧ SchedInv steps s2 ∧
        steps.length ≤ s2.completed.length := by
  intro fuel
  induction fuel with
  | zero => intro s _ hlt; omega
  | succ fuel ih =>
    intro s hinv hlt
    by_cases hdone : steps.length ≤ s.completed.length
    · refine ⟨s, ?_, hinv, hdone⟩
      simp [execLoop, hdone]
    · have hlt2 : s.completed.length < steps.length := by omega
      have hinv2 : SchedInv steps (scheduleReady steps s) :=
        schedInv_scheduleReady steps s hinv hdag.1
      have hrun_ne : (scheduleReady steps s).running ≠ [] := by
        cases hr : s.running with
        | cons x xs =>
          simp only [scheduleReady, hr]
          exact List.cons_ne_nil _ _
        | nil =>
          have hready := ready_nonempty steps hdag s hlt2 hr
          rw [hr] at hready
          simp only [scheduleReady, hr, List.nil_append]
          simpa using hready
      obtain ⟨hone, hond, hosub⟩ := horacle (scheduleReady steps s) hrun_ne
      obtain ⟨s3, hok, hinv3, hlen3⟩ :=
        processDone_ok steps fails hfail (oracle (scheduleReady steps s))
          (scheduleReady steps s) hinv2 hond hosub
      have hcomp_sched : (scheduleReady steps s).completed = s.completed := rfl
      have hstep : execLoop steps fails oracle (fuel + 1) s =
          execLoop steps fails oracle fuel s3 := by
        simp only [execLoop, if_neg hdone]
        rw [if_neg (by simpa using hrun_ne), hok]
      obtain ⟨s4, hfin, hinv4, hle4⟩ := ih s3 hinv3 (by
        rw [hcomp_sched] at hlen3
        have hpos : 0 < (oracle (scheduleReady steps s)).length :=
          List.length_pos.mpr hone
        omega)
      exact ⟨s4, hstep ▸ hfin, hinv4, hle4⟩

/-- Claim C1: for every plan whose steps form a valid DAG (unique step ids,
depends_on referencing only ids in the plan, no cycles) and whose workers
all return successfully, and for every scheduler behaviour (any valid done
set at each wait and enough loop fuel), `_execute_plan` terminates
normally, creates every step's task exactly once, ends with every step's
id in the completed set, and never creates a step's task before every id
in its depends_on is in the completed set. -/
theorem claim1_valid_dag_runs_every_step_exactly_once :
    ∀ (steps : List Step) (fails : StepId → Bool)
      (oracle : SchedState → List StepId) (fuel : Nat),
      ValidDag steps → (∀ st ∈ steps, fails st.step_id = false) →
      OracleValid oracle → steps.length < fuel →
      (execLoop steps fails oracle fuel initState).isFinished = true
    ∧ AllStepsCompleted steps (execLoop steps fails oracle fuel initState).state
    ∧ EachCreatedOnce steps (execLoop steps fails oracle fuel initState).state.trace
    ∧ OrderOK steps (execLoop steps fails oracle fuel initState).state.trace := by
  intro steps fails oracle fuel hdag hfail horacle hfuel
  obtain ⟨s2, heq, hinv, hlen⟩ :=
    execLoop_finishes steps fails oracle hdag hfail horacle fuel initState
      (schedInv_init steps) (by simp [initState]; omega)
  have hperm : List.Perm s2.completed (steps.map (·.step_id)) := by
    refine (List.subperm_of_subset hinv.comp_nodup ?_).perm_of_length_le ?_
    · intro x hx
      exact hinv.comp_sub x hx
    · rw [List.length_map]
      exact hlen
  have hrun_nil : s2.running = [] := by
    rw [List.eq_nil_iff_forall_not_mem]
    intro x hx
    have hxi : x ∈ steps.map (·.step_id) := hinv.run_sub x hx
    have hxc : x ∈ s2.completed := hperm.mem_iff.mpr hxi
    exact hinv.disj x hxc hx
  rw [heq]
  simp only [ExecResult.state]
  refine ⟨rfl, ?_, ?_, hinv.order_ok⟩
  · intro st hst
    exact hperm.mem_iff.mpr (List.mem_map_of_mem _ hst)
  · intro st hst
    rw [count_taskCreated]
    rw [hinv.created_perm.count_eq, hrun_nil, List.append_nil, hperm.count_eq]
    exact List.count_eq_one_of_mem hdag.1 (List.mem_map_of_mem _ hst)

def demoSteps : List Step :=
  [⟨"a", "security", "root analysis", [], true, 60⟩,
   ⟨"b", "security", "first dependent", ["a"], true, 60⟩,
   ⟨"c", "bug", "second dependent", ["a"], true, 60⟩,
   ⟨"d", "bug", "join step", ["b", "c"], true, 60⟩]

theorem headOracle_valid : OracleValid headOracle := by
  intro s h
  cases hr : s.running with
  | nil => exact absurd hr h
  | cons x xs =>
    refine ⟨by simp [headOracle, hr], by simp [headOracle, hr], ?_⟩
    intro id hid
    simp only [headOracle, hr, List.take_succ_cons, List.take_zero] at hid
    rw [List.mem_singleton] at hid
    subst hid
    exact List.mem_cons_self _ _

/-- Witness for claim C1: a concrete diamond-shaped plan (b and c depend
on a, d depends on b and c) with all-successful workers and the
first-task-finishes-first oracle. -/
theorem claim1_witness :
    (execLoop demoSteps (fun _ => false) headOracle 9 initState).isFinished = true
  ∧ AllStepsCompleted demoSteps
      (execLoop demoSteps (fun _ => false) headOracle 9 initState).state
  ∧ EachCreatedOnce demoSteps
      (execLoop demoSteps (fun _ => false) headOracle 9 initState).state.trace
  ∧ OrderOK demoSteps
      (execLoop demoSteps (fun _ => false) headOracle 9 initState).state.trace := by
  refine claim1_valid_dag_runs_every_step_exactly_once demoSteps (fun _ => false)
    headOracle 9 ⟨by decide, by decide, ?_⟩ (by decide) headOracle_valid (by decide)
  exact ⟨fun id => if id = "a" then 0 else if id = "d" then 2 else 1, by decide⟩

/-! ## Claims C2, C3, C9: validation, failure propagation, deadlock -/

def stSec (id : StepId) (deps : List StepId) : Step :=
  ⟨id, "security", "analysis step", deps, true, 60⟩

def cyclePlusSteps : List Step := [stSec "a" ["b"], stSec "b" ["a"], stSec "c" []]

/-- Counterexample to claim C2: a plan whose dependency graph has the cycle
a-b plus an independent step c is not rejected before execution and does
not start zero steps: step c's task is created (and c runs to completion)
before the run aborts, and the abort is a runtime deadlock RuntimeError,
not a pre-execution structural validation error. -/
theorem claim2_counterexample :
    execLoop cyclePlusSteps (fun _ => false) headOracle 5 initState =
      ExecResult.deadlock "Deadlock detected in plan execution"
        ⟨["c"], [], [TraceEv.taskCreated "c", TraceEv.stepCompleted "c"]⟩ := by
  decide

/-- Claim C2 amended: `_execute_plan` performs no structural validation; a
plan whose dependency graph has a cycle or an unknown reference fails at
run time via the deadlock RuntimeError once no step is running and none is
ready. A nonempty plan none of whose steps is initially ready (e.g. one
whose steps all lie on cycles or depend on unknown ids) fails on the very
first loop iteration with zero steps started; but a plan with a cycle plus
an initially-ready step starts that step first (see the counterexample). -/
theorem claim2_amended_invalid_plan_deadlocks_at_runtime :
    ∀ (steps : List Step) (fails : StepId → Bool)
      (oracle : SchedState → List StepId) (fuel : Nat),
      steps ≠ [] → findReadySteps steps [] [] = [] →
      execLoop steps fails oracle (fuel + 1) initState =
        ExecResult.deadlock "Deadlock detected in plan execution" initState := by
  intro steps fails oracle fuel hne hready
  have hlen : ¬ steps.length ≤ initState.completed.length := by
    have := List.length_pos.mpr hne
    simp only [initState, List.length_nil]
    omega
  have hsched : scheduleReady steps initState = initState := by
    simp [scheduleReady, initState, hready]
  simp only [execLoop]
  rw [if_neg hlen, hsched]
  simp [initState]

def pureCycleSteps : List Step := [stSec "a" ["b"], stSec "b" ["a"]]

/-- Witness for claim C2 amended: the two-step cycle plan from the spec
(a depends on b, b depends on a) deadlocks on the first iteration with
zero steps started. -/
theorem claim2_witness :
    execLoop pureCycleSteps (fun _ => false) headOracle 3 initState =
      ExecResult.deadlock "Deadlock detected in plan execution" initState :=
  claim2_amended_invalid_plan_deadlocks_at_runtime pureCycleSteps
    (fun _ => false) headOracle 2 (by decide) (by decide)

def twoParSteps : List Step := [stSec "a" [], stSec "b" []]

/-- Counterexample to claim C3: when step a fails while its sibling b is
still in flight, the failure propagates out of `_execute_plan` at once:
the run ends as the single step error for a with b still recorded as
running (the scheduler has not drained it and never awaits it again), and
the surfaced error carries only step a, not an aggregated set of failed
steps. -/
theorem claim3_counterexample :
    execLoop twoParSteps (fun id => decide (id = "a")) (fun _ => ["a"]) 5 initState =
      ExecResult.stepError "a"
        ⟨[], ["a", "b"], [TraceEv.taskCreated "a", TraceEv.taskCreated "b"]⟩ := by
  decide

theorem processDone_error (fails : StepId → Bool) :
    ∀ (done : List StepId) (s : SchedState) (id : StepId) (st : SchedState),
      processDone fails done s = .error (id, st) → fails id = true := by
  intro done
  induction done with
  | nil =>
    intro s id st h
    simp [processDone] at h
  | cons x rest ih =>
    intro s id st h
    simp only [processDone] at h
    split at h
    · rename_i hx
      injection h with h2
      injection h2 with h3 h4
      rw [← h3]
      exact hx
    · exact ih _ id st h

/-- Claim C3 amended: when a step fails, `_execute_plan` re-raises the
first failure it observes immediately: the run ends right there as that
single step's error (a genuinely failing step), sibling steps still in
flight are neither cancelled nor awaited again, no aggregation of failed
steps takes place, and no further scheduling happens after the raise. -/
theorem claim3_amended_first_failure_propagates_immediately :
    ∀ (steps : List Step) (fails : StepId → Bool)
      (oracle : SchedState → List StepId) (fuel : Nat) (s0 : SchedState)
      (id : StepId) (st : SchedState),
      execLoop steps fails oracle fuel s0 = ExecResult.stepError id st →
      fails id = true := by
  intro steps fails oracle fuel
  induction fuel with
  | zero =>
    intro s0 id st h
    simp [execLoop] at h
  | succ fuel ih =>
    intro s0 id st h
    simp only [execLoop] at h
    split at h
    · cases h
    · split at h
      · cases h
      · cases hp : processDone fails (oracle (scheduleReady steps s0))
            (scheduleReady steps s0) with
        | error e =>
          rw [hp] at h
          cases h
          exact processDone_error fails _ _ _ _ hp
        | ok s3 =>
          rw [hp] at h
          exact ih s3 id st h

/-- Witness for claim C3 amended: applied to the concrete two-parallel-step
run of the counterexample, whose surfaced step error is step a, a step
whose task indeed failed. -/
theorem claim3_witness :
    (fun id => decide (id = "a")) "a" = true :=
  claim3_amended_first_failure_propagates_immediately twoParSteps
    (fun id => decide (id = "a")) (fun _ => ["a"]) 5 initState "a"
    ⟨[], ["a", "b"], [TraceEv.taskCreated "a", TraceEv.taskCreated "b"]⟩
    (by decide)

def selfCycleA : List Step := [stSec "alpha" ["alpha"]]

def selfCycleB : List Step := [stSec "beta" ["beta"]]

/-- Counterexample to claim C9: two plans whose never-ready steps differ
(step alpha in one plan, step beta in the other) abort with literally
identical deadlock errors — the RuntimeError message is the fixed string
"Deadlock detected in plan execution" and names no step, so the error does
not report which steps never became ready. -/
theorem claim9_counterexample :
    execLoop selfCycleA (fun _ => false) headOracle 3 initState =
      ExecResult.deadlock "Deadlock detected in plan execution" initState
  ∧ execLoop selfCycleB (fun _ => false) headOracle 3 initState =
      ExecResult.deadlock "Deadlock detected in plan execution" initState
  ∧ selfCycleA ≠ selfCycleB := by
  decide

/-- Claim C9 amended: if during plan execution no step is running and the
ready set is empty while incomplete steps remain, the scheduler does abort
the whole run with a fatal deadlock RuntimeError; but the raised error is
the fixed message "Deadlock detected in plan execution", independent of
the plan and of which steps never became ready — it does not name them. -/
theorem claim9_amended_deadlock_aborts_with_fixed_message :
    ∀ (steps : List Step) (fails : StepId → Bool)
      (oracle : SchedState → List StepId) (fuel : Nat) (s : SchedState),
      s.completed.length < steps.length →
      findReadySteps steps s.completed s.running = [] →
      s.running = [] →
      execLoop steps fails oracle (fuel + 1) s =
        ExecResult.deadlock "Deadlock detected in plan execution" s := by
  intro steps fails oracle fuel s hlt hready hrun
  have hsched : scheduleReady steps s = s := by
    obtain ⟨c, r, t⟩ := s
    simp [scheduleReady, hready]
  simp only [execLoop]
  rw [if_neg (by omega), hsched, hrun]
  simp [hrun]

/-- Witness for claim C9 amended: a mid-run state (one unrelated step
already completed, nothing running) over the two-step cycle plan, where no
remaining step can ever become ready. -/
theorem claim9_witness :
    execLoop pureCycleSteps (fun _ => false) headOracle 4 ⟨["z"], [], []⟩ =
      ExecResult.deadlock "Deadlock detected in plan execution" ⟨["z"], [], []⟩ :=
  claim9_amended_deadlock_aborts_with_fixed_message pureCycleSteps
    (fun _ => false) headOracle 3 ⟨["z"], [], []⟩ (by decide) (by decide) rfl
